import Mathlib

/-!
Shallow embedding of the `torserde` crate (src/src/lib.rs): a binary codec
for the Tor wire format.  Byte streams are modelled as `List Nat` (each
entry a byte value), sinks are infallible in-memory buffers, and every
Rust `Result` together with the possibility of a panic (`unreachable!`)
is modelled by the three-way `Outcome` type below.  Narrowing casts
(`as u8`, `as u16`, ...) are modelled by explicit `% 2^w`.  Reported
byte counts (the `u32` totals returned by `bin_serialise_into` and
`serialised_length`) are carried as unbounded `Nat`; every theorem about
those counts therefore carries an explicit `< 2^32` bound confining it
to the domain where the source's `u32` arithmetic cannot overflow, so
that the model and the program agree there under both debug (panicking)
and release (wrapping) semantics.
-/

namespace Torserde

/-- Embeds `enum ErrorKind` from src/src/lib.rs.  `BincodeErrorEof` stands
for `ErrorKind::BincodeError(bincode::ErrorKind::Io(UnexpectedEof))`, the
only bincode error that can arise from an in-memory byte source; the
variants unused by the code under verification carry their payloads as
`Nat`. -/
inductive ErrorKind where
  | BadDiscriminant : Nat → ErrorKind
  | DiscardedCell : Nat → ErrorKind
  | BadDigest : Nat → Nat → ErrorKind
  | BincodeErrorEof : ErrorKind
  | StdIoError : ErrorKind
deriving DecidableEq, Repr

/-- The end-of-input error produced when bincode's `deserialize_from` hits
a short read: `ErrorKind::BincodeError(Io(UnexpectedEof))`. -/
def eofErr : ErrorKind := ErrorKind.BincodeErrorEof

/-- Result of running a Rust function that returns `Result<α, ErrorKind>`
and may also panic: `ok` models `Ok`, `err` models `Err`, and `panic`
models an `unreachable!()` process abort. -/
inductive Outcome (α : Type) where
  | ok : α → Outcome α
  | err : ErrorKind → Outcome α
  | panic : Outcome α
deriving DecidableEq, Repr

/-- Sequencing of fallible Rust code: the `?` operator propagates `Err`,
and a panic aborts everything downstream. -/
def Outcome.bind {α β : Type} (x : Outcome α) (f : α → Outcome β) : Outcome β :=
  match x with
  | .ok a => f a
  | .err e => .err e
  | .panic => .panic

/-- Big-endian bytes of `v`, exactly `w` bytes wide; high bits of an
out-of-range `v` are dropped, exactly as bincode writes the `w`-byte
two's-complement representation of a value already narrowed to `w`
bytes. -/
def toBytesBE : Nat → Nat → List Nat
  | 0, _ => []
  | w + 1, v => toBytesBE w (v / 256) ++ [v % 256]

/-- Value of a big-endian byte string. -/
def fromBytesBE (bs : List Nat) : Nat :=
  bs.foldl (fun a b => a * 256 + b) 0

/-- A `TorSerde` implementation (the trait at src/src/lib.rs:58-66):
`bin_serialise_into` returns the reported byte count together with the
bytes written to the sink; `bin_deserialise_from` consumes a prefix of
the source and returns the value with the unread remainder;
`serialised_length` reports the size without serialising. -/
structure Codec (α : Type) where
  bin_serialise_into : α → Outcome (Nat × List Nat)
  bin_deserialise_from : List Nat → Outcome (α × List Nat)
  serialised_length : α → Nat

/-- The five scalar impls (`u8`, `u16`, `u32`, `u64`, `u128`,
src/src/lib.rs:100-179) at width `w` bytes: serialise writes the
fixed-width big-endian bytes via `BINCODE_OPTIONS` and returns
`serialised_length`; deserialise reads exactly `w` bytes or fails with
bincode's unexpected-end-of-input error. -/
def scalarCodec (w : Nat) : Codec Nat where
  bin_serialise_into v := .ok (w, toBytesBE w v)
  bin_deserialise_from s :=
    if w ≤ s.length then .ok (fromBytesBE (s.take w), s.drop w) else .err eofErr
  serialised_length _ := w

def u8Codec : Codec Nat := scalarCodec 1
def u16Codec : Codec Nat := scalarCodec 2
def u32Codec : Codec Nat := scalarCodec 4
def u64Codec : Codec Nat := scalarCodec 8
def u128Codec : Codec Nat := scalarCodec 16

/-- Serialise each element of a list in order, accumulating the reported
counts and the written bytes; an element-level error or panic aborts at
once.  This is the `for item in self.0.iter()` loop shared by
`NLengthVector` (src/src/lib.rs:192-194) and `VersionsVector`
(src/src/lib.rs:225-227).  The Rust accumulator `total` is a `u32`; it
is carried here as `Nat`, and theorems about the accumulated count hold
under an explicit bound keeping the total below `2^32`, where the `u32`
addition can neither wrap nor panic. -/
def serList {α : Type} (c : Codec α) : List α → Outcome (Nat × List Nat)
  | [] => .ok (0, [])
  | x :: xs =>
    (c.bin_serialise_into x).bind fun nb =>
      (serList c xs).bind fun mb => .ok (nb.1 + mb.1, nb.2 ++ mb.2)

/-- Deserialise exactly `n` elements in order, propagating any
element-level failure immediately.  This is the `for _ in 0..length` loop
of `NLengthVector::bin_deserialise_from` (src/src/lib.rs:209-211) and
`VersionsVector::bin_deserialise_from` (src/src/lib.rs:236-238). -/
def readList {α : Type} (c : Codec α) : Nat → List Nat → Outcome (List α × List Nat)
  | 0, s => .ok ([], s)
  | n + 1, s =>
    (c.bin_deserialise_from s).bind fun xs =>
      (readList c n xs.2).bind fun ys => .ok (xs.1 :: ys.1, ys.2)

/-- The length-prefix write of `NLengthVector::bin_serialise_into`
(src/src/lib.rs:185-190): `self.0.len()` is cast to `u8`/`u16`/`u32`
(modular narrowing) and serialised; any other const width `N` hits
`unreachable!()`. -/
def nlvPrefixSer (N len : Nat) : Outcome (Nat × List Nat) :=
  match N with
  | 1 => (scalarCodec 1).bin_serialise_into (len % 2 ^ 8)
  | 2 => (scalarCodec 2).bin_serialise_into (len % 2 ^ 16)
  | 4 => (scalarCodec 4).bin_serialise_into (len % 2 ^ 32)
  | _ => .panic

/-- The length-prefix read of `NLengthVector::bin_deserialise_from`
(src/src/lib.rs:200-205): a `u8`/`u16`/`u32` is read and widened to
`u32`; any other const width `N` hits `unreachable!()`. -/
def nlvPrefixDeser (N : Nat) (s : List Nat) : Outcome (Nat × List Nat) :=
  match N with
  | 1 => (scalarCodec 1).bin_deserialise_from s
  | 2 => (scalarCodec 2).bin_deserialise_from s
  | 4 => (scalarCodec 4).bin_deserialise_from s
  | _ => .panic

/-- `impl TorSerde for NLengthVector<T, N>` (src/src/lib.rs:181-219),
generic over the element codec `c` and the prefix width `N`.  The vector
itself is its element list.  `serialised_length` is the fold at
src/src/lib.rs:217 with initial value `N as u32`; both it and the
serialiser's running `total` are `u32` in the source and `Nat` here, so
count-level theorems carry a `N + payload < 2^32` bound placing them
where the `u32` arithmetic cannot overflow. -/
def nlvCodec {α : Type} (c : Codec α) (N : Nat) : Codec (List α) where
  bin_serialise_into l :=
    (nlvPrefixSer N l.length).bind fun nb =>
      (serList c l).bind fun mb => .ok (nb.1 + mb.1, nb.2 ++ mb.2)
  bin_deserialise_from s :=
    (nlvPrefixDeser N s).bind fun ls =>
      (readList c ls.1 ls.2).bind fun vs => .ok (vs.1, vs.2)
  serialised_length l := l.foldl (fun acc x => acc + c.serialised_length x) N

/-- `impl TorSerde for VersionsVector` (src/src/lib.rs:221-246).  The
payload is a list of `u16` values.  Serialise writes
`(self.0.len()*2) as u16` then the elements, and returns
`self.serialised_length()`; deserialise reads a `u16`, halves it with
truncating division, and reads that many `u16` elements;
`serialised_length` is `(self.0.len() * 2) as u32` — it does NOT count
the 2-byte prefix. -/
def versionsCodec : Codec (List Nat) where
  bin_serialise_into l :=
    ((scalarCodec 2).bin_serialise_into (l.length * 2 % 2 ^ 16)).bind fun nb =>
      (serList (scalarCodec 2) l).bind fun mb =>
        .ok (l.length * 2 % 2 ^ 32, nb.2 ++ mb.2)
  bin_deserialise_from s :=
    ((scalarCodec 2).bin_deserialise_from s).bind fun ls =>
      (readList (scalarCodec 2) (ls.1 / 2) ls.2).bind fun vs => .ok (vs.1, vs.2)
  serialised_length l := l.length * 2 % 2 ^ 32

/-- `impl TorSerde for DateTime<Local>` (src/src/lib.rs:248-262), modelled
by its whole-second Unix timestamp (an `i64`; `DateTime` sub-second
precision is dropped by `timestamp()` on encode and is zero on decode).
Serialise narrows the timestamp with `as u32` (two's-complement
truncation, i.e. Euclidean mod 2^32) and serialises it as a `u32`;
deserialise reads a `u32` and rebuilds the instant via
`Local.timestamp(timestamp as i64, 0)`. -/
def dateTimeCodec : Codec Int where
  bin_serialise_into ts := (scalarCodec 4).bin_serialise_into (ts % (2 ^ 32 : Int)).toNat
  bin_deserialise_from s :=
    ((scalarCodec 4).bin_deserialise_from s).bind fun vs => .ok ((vs.1 : Int), vs.2)
  serialised_length _ := 4

/-- `std::net::IpAddr`, with each address held as its integer value: the
`Ipv4Addr` ⇄ `u32` and `Ipv6Addr` ⇄ `u128` conversions used at
src/src/lib.rs:266 and 284 are kept implicit by storing that integer. -/
inductive IpAddr where
  | V4 : Nat → IpAddr
  | V6 : Nat → IpAddr
deriving DecidableEq, Repr

/-- `impl TorSerde for IpAddr` (src/src/lib.rs:300-334), inlining the
`Ipv4Addr`/`Ipv6Addr` impls (which serialise the `u32`/`u128` address
value).  Serialise writes a family tag byte (4 or 6), a length byte (4 or
16), then the address; deserialise reads the tag and the length byte,
dispatches on the tag, and hits `unreachable!()` on any other tag
value. -/
def ipCodec : Codec IpAddr where
  bin_serialise_into a :=
    match a with
    | .V4 v =>
      ((scalarCodec 1).bin_serialise_into 4).bind fun t =>
        ((scalarCodec 1).bin_serialise_into 4).bind fun l =>
          ((scalarCodec 4).bin_serialise_into v).bind fun b =>
            .ok (t.1 + l.1 + b.1, t.2 ++ l.2 ++ b.2)
    | .V6 v =>
      ((scalarCodec 1).bin_serialise_into 6).bind fun t =>
        ((scalarCodec 1).bin_serialise_into 16).bind fun l =>
          ((scalarCodec 16).bin_serialise_into v).bind fun b =>
            .ok (t.1 + l.1 + b.1, t.2 ++ l.2 ++ b.2)
  bin_deserialise_from s :=
    ((scalarCodec 1).bin_deserialise_from s).bind fun ts =>
      ((scalarCodec 1).bin_deserialise_from ts.2).bind fun ls =>
        match ts.1 with
        | 4 => ((scalarCodec 4).bin_deserialise_from ls.2).bind fun vs =>
            .ok (IpAddr.V4 vs.1, vs.2)
        | 6 => ((scalarCodec 16).bin_deserialise_from ls.2).bind fun vs =>
            .ok (IpAddr.V6 vs.1, vs.2)
        | _ => .panic
  serialised_length a := 2 + match a with | .V4 _ => 4 | .V6 _ => 16

/-- The byte-accumulation loop of `String::bin_deserialise_from`
(src/src/lib.rs:350-358): read single bytes until a zero byte (the
sentinel, excluded from the result) or the source is exhausted
(end-of-input error from the `u8` read). -/
def deserStringLoop : List Nat → Outcome (List Nat × List Nat)
  | [] => .err eofErr
  | b :: rest =>
    if b = 0 then .ok ([], rest)
    else (deserStringLoop rest).bind fun as2 => .ok (b :: as2.1, as2.2)

/-- `impl TorSerde for String` (src/src/lib.rs:336-368), with the string
modelled by its UTF-8 byte content.  Serialise writes the content bytes
verbatim (`write_all`) then a zero sentinel byte; deserialise accumulates
bytes up to the sentinel and rebuilds the string with
`String::from_utf8_unchecked` — NO UTF-8 validation is performed.
`serialised_length` is `1 + self.len() as u32`: the cast is modelled by
`% 2^32`, while the outer `+ 1` (also `u32` in the source, wrapping to 0
at content length `2^32 - 1`) is carried as `Nat`; count-level theorems
carry a `length + 1 < 2^32` bound placing them below that wrap. -/
def stringCodec : Codec (List Nat) where
  bin_serialise_into bs := .ok (1 + bs.length % 2 ^ 32, bs ++ [0])
  bin_deserialise_from := deserStringLoop
  serialised_length bs := 1 + bs.length % 2 ^ 32

/-- `impl<const N: usize> TorSerde for [u8; N]` (src/src/lib.rs:370-392):
the array is a byte list whose length is the const parameter `N`.
Serialise writes each byte through the `u8` impl and returns `N as u32`;
deserialise reads exactly `N` single bytes; `serialised_length` is
`self.len() as u32`.  The `as u32` narrowing (which wraps for
N ≥ 2^32) is carried as plain `N`; count-level theorems carry an
`N < 2^32` bound where the cast is the identity. -/
def arrayCodec (N : Nat) : Codec (List Nat) where
  bin_serialise_into a :=
    (serList (scalarCodec 1) a).bind fun mb => .ok (N, mb.2)
  bin_deserialise_from s :=
    (readList (scalarCodec 1) N s).bind fun vs => .ok (vs.1, vs.2)
  serialised_length a := a.length

/-- The concatenated `w`-byte big-endian encodings of a list of scalars. -/
def bytesOf (w : Nat) : List Nat → List Nat
  | [] => []
  | v :: l => toBytesBE w v ++ bytesOf w l

/-- A UTF-8 continuation byte (`0x80..=0xBF`). -/
def utf8Cont (b : Nat) : Bool := 0x80 ≤ b && b ≤ 0xBF

/-- Well-formedness of a UTF-8 byte sequence, following RFC 3629 (the
invariant every Rust `String` maintains and that
`String::from_utf8_unchecked` at src/src/lib.rs:361 bypasses): ASCII
bytes stand alone; 2-, 3- and 4-byte sequences carry the right number of
continuation bytes, with the restricted ranges after `0xE0`, `0xED`,
`0xF0` and `0xF4` that exclude overlong forms, surrogates and code
points above `U+10FFFF`. -/
def isValidUtf8 : List Nat → Bool
  | [] => true
  | b :: rest =>
    if b ≤ 0x7F then isValidUtf8 rest
    else if 0xC2 ≤ b && b ≤ 0xDF then
      match rest with
      | c1 :: r => utf8Cont c1 && isValidUtf8 r
      | _ => false
    else if b = 0xE0 then
      match rest with
      | c1 :: c2 :: r => (0xA0 ≤ c1 && c1 ≤ 0xBF) && utf8Cont c2 && isValidUtf8 r
      | _ => false
    else if (0xE1 ≤ b && b ≤ 0xEC) || b = 0xEE || b = 0xEF then
      match rest with
      | c1 :: c2 :: r => utf8Cont c1 && utf8Cont c2 && isValidUtf8 r
      | _ => false
    else if b = 0xED then
      match rest with
      | c1 :: c2 :: r => (0x80 ≤ c1 && c1 ≤ 0x9F) && utf8Cont c2 && isValidUtf8 r
      | _ => false
    else if b = 0xF0 then
      match rest with
      | c1 :: c2 :: c3 :: r =>
        (0x90 ≤ c1 && c1 ≤ 0xBF) && utf8Cont c2 && utf8Cont c3 && isValidUtf8 r
      | _ => false
    else if 0xF1 ≤ b && b ≤ 0xF3 then
      match rest with
      | c1 :: c2 :: c3 :: r => utf8Cont c1 && utf8Cont c2 && utf8Cont c3 && isValidUtf8 r
      | _ => false
    else if b = 0xF4 then
      match rest with
      | c1 :: c2 :: c3 :: r =>
        (0x80 ≤ c1 && c1 ≤ 0x8F) && utf8Cont c2 && utf8Cont c3 && isValidUtf8 r
      | _ => false
    else false

/-- The serialise side of the codec contract (spec §4.8): serialising `v`
succeeds, returns exactly `serialised_length v`, and writes exactly that
many bytes to the sink. -/
def SerAgrees {α : Type} (c : Codec α) (v : α) : Prop :=
  ∃ bs, c.bin_serialise_into v = .ok (c.serialised_length v, bs) ∧
    bs.length = c.serialised_length v

/-- The round-trip property (spec §8): serialising `v` succeeds and
deserialising the bytes written yields `v` back, consuming them all. -/
def RoundTrips {α : Type} (c : Codec α) (v : α) : Prop :=
  ∃ n bs, c.bin_serialise_into v = .ok (n, bs) ∧
    c.bin_deserialise_from bs = .ok (v, [])

/-- Truncation behaviour (spec §8): every strict prefix of a valid
encoding of `v` fails to deserialise with the end-of-input error. -/
def TruncatedEof {α : Type} (c : Codec α) (v : α) : Prop :=
  ∀ n bs, c.bin_serialise_into v = .ok (n, bs) →
    ∀ k, k < bs.length → c.bin_deserialise_from (bs.take k) = .err eofErr

/-- A decoder only ever consumes a prefix of its source: whatever it
returns as the remainder is a suffix of the input, so it never touches
bytes beyond those it reports consumed. -/
def ConsumesOnly {α : Type} (c : Codec α) : Prop :=
  ∀ s v rest, c.bin_deserialise_from s = .ok (v, rest) → ∃ p, s = p ++ rest

theorem toBytesBE_length (w v : Nat) : (toBytesBE w v).length = w := by
  induction w generalizing v with
  | zero => rfl
  | succ w ih => simp [toBytesBE, ih]

theorem fromBytesBE_append_singleton (bs : List Nat) (b : Nat) :
    fromBytesBE (bs ++ [b]) = fromBytesBE bs * 256 + b := by
  simp [fromBytesBE]

theorem fromBytesBE_toBytesBE (w v : Nat) :
    fromBytesBE (toBytesBE w v) = v % 2 ^ (8 * w) := by
  induction w generalizing v with
  | zero => simp [toBytesBE, fromBytesBE, Nat.mod_one]
  | succ w ih =>
    rw [toBytesBE, fromBytesBE_append_singleton, ih]
    have h : v % (2 ^ 8 * 2 ^ (8 * w)) = v % 2 ^ 8 + 2 ^ 8 * (v / 2 ^ 8 % 2 ^ (8 * w)) :=
      Nat.mod_mul
    have hw : 2 ^ (8 * (w + 1)) = 2 ^ 8 * 2 ^ (8 * w) := by ring
    rw [hw, h]
    norm_num
    ring

theorem toBytesBE_mod (w v : Nat) : toBytesBE w (v % 2 ^ (8 * w)) = toBytesBE w v := by
  induction w generalizing v with
  | zero => rfl
  | succ w ih =>
    have hw : 2 ^ (8 * (w + 1)) = 2 ^ 8 * 2 ^ (8 * w) := by ring
    rw [toBytesBE, toBytesBE, hw]
    have h8 : (2 : ℕ) ^ 8 = 256 := by norm_num
    congr 1
    · rw [h8, Nat.mod_mul_right_div_self, ih]
    · rw [h8, Nat.mod_mul_right_mod]

/-- Reading a `w`-byte scalar from its own encoding followed by any
remainder recovers the value (mod `2^(8w)`) and leaves the remainder. -/
theorem scalar_deser_append (w v : Nat) (rest : List Nat) :
    (scalarCodec w).bin_deserialise_from (toBytesBE w v ++ rest) =
      .ok (v % 2 ^ (8 * w), rest) := by
  have hlen : (toBytesBE w v).length = w := toBytesBE_length w v
  simp only [scalarCodec]
  rw [if_pos]
  · rw [List.take_left' hlen, List.drop_left' hlen, fromBytesBE_toBytesBE]
  · simp [hlen]

theorem bytesOf_length (w : Nat) (l : List Nat) :
    (bytesOf w l).length = w * l.length := by
  induction l with
  | nil => simp [bytesOf]
  | cons v l ih => simp [bytesOf, toBytesBE_length, ih]; ring

theorem serList_scalar (w : Nat) (l : List Nat) :
    serList (scalarCodec w) l = .ok (w * l.length, bytesOf w l) := by
  induction l with
  | nil => simp [serList, bytesOf]
  | cons v l ih =>
    rw [serList, ih]
    simp only [scalarCodec, Outcome.bind, bytesOf, List.length_cons]
    have : w + w * l.length = w * (l.length + 1) := by ring
    rw [this]

theorem readList_scalar_append (w : Nat) (l : List Nat) (rest : List Nat) :
    readList (scalarCodec w) l.length (bytesOf w l ++ rest) =
      .ok (l.map (fun v => v % 2 ^ (8 * w)), rest) := by
  induction l generalizing rest with
  | nil => simp [readList, bytesOf]
  | cons v l ih =>
    simp only [List.length_cons, readList, bytesOf, List.append_assoc,
      scalar_deser_append, Outcome.bind, ih, List.map]

/-- Reading `n` scalars of positive width `w` from a source shorter than
`w * n` bytes fails with the end-of-input error. -/
theorem readList_scalar_short (w n : Nat) (s : List Nat)
    (hs : s.length < w * n) : readList (scalarCodec w) n s = .err eofErr := by
  induction n generalizing s with
  | zero => omega
  | succ n ih =>
    by_cases hle : w ≤ s.length
    · have : (scalarCodec w).bin_deserialise_from s =
          .ok (fromBytesBE (s.take w), s.drop w) := by
        simp [scalarCodec, hle]
      rw [readList, this, Outcome.bind, ih]
      · rfl
      · simp only [List.length_drop]
        have : w * (n + 1) = w * n + w := by ring
        omega
    · have : (scalarCodec w).bin_deserialise_from s = .err eofErr := by
        simp [scalarCodec, hle]
      rw [readList, this]
      rfl

/-- Reading `n` scalars of positive width `w` from a sufficiently long
source succeeds, consuming exactly `w * n` bytes. -/
theorem readList_scalar_enough (w n : Nat) (s : List Nat)
    (hs : w * n ≤ s.length) :
    ∃ l, readList (scalarCodec w) n s = .ok (l, s.drop (w * n)) ∧
      l.length = n := by
  induction n generalizing s with
  | zero => exact ⟨[], by simp [readList], rfl⟩
  | succ n ih =>
    have hwn : w * (n + 1) = w * n + w := by ring
    have hle : w ≤ s.length := by omega
    obtain ⟨l, hl, hlen⟩ := ih (s.drop w) (by simp only [List.length_drop]; omega)
    refine ⟨fromBytesBE (s.take w) :: l, ?_, by simp [hlen]⟩
    have h1 : (scalarCodec w).bin_deserialise_from s =
        .ok (fromBytesBE (s.take w), s.drop w) := by
      simp [scalarCodec, hle]
    rw [readList, h1, Outcome.bind, hl, Outcome.bind, List.drop_drop]
    rw [Nat.add_comm, ← hwn]

theorem Outcome.bind_eq_ok {α β : Type} {x : Outcome α} {f : α → Outcome β} {b : β}
    (h : Outcome.bind x f = .ok b) : ∃ a, x = .ok a ∧ f a = .ok b := by
  cases x with
  | ok a => exact ⟨a, rfl, h⟩
  | err e => exact absurd h (by simp [Outcome.bind])
  | panic => exact absurd h (by simp [Outcome.bind])

theorem Outcome.bind_pair {β γ : Type} (x : Outcome (β × γ)) :
    Outcome.bind x (fun vs => .ok (vs.1, vs.2)) = x := by
  cases x <;> rfl

theorem Outcome.ok_bind {α β : Type} (a : α) (f : α → Outcome β) :
    Outcome.bind (.ok a) f = f a := rfl

theorem map_mod_eq_self {m : Nat} {l : List Nat} (h : ∀ v ∈ l, v < m) :
    l.map (fun v => v % m) = l := by
  induction l with
  | nil => rfl
  | cons v l ih =>
    have hv : v % m = v := Nat.mod_eq_of_lt (h v (by simp))
    simp only [List.map, hv, ih (fun x hx => h x (by simp [hx]))]

theorem foldl_add_two (l : List Nat) (init : Nat) :
    l.foldl (fun acc _ => acc + 2) init = init + 2 * l.length := by
  induction l generalizing init with
  | nil => simp
  | cons v l ih => simp [List.foldl, ih]; ring

/-- `NLengthVector<u16, N>` serialisation in closed form for the three
legal widths: a modularly narrowed `N`-byte count prefix followed by the
big-endian element encodings, with reported count `N + 2·len`. -/
theorem nlv_ser_u16 (N : Nat) (hN : N = 1 ∨ N = 2 ∨ N = 4) (l : List Nat) :
    (nlvCodec (scalarCodec 2) N).bin_serialise_into l =
      .ok (N + 2 * l.length, toBytesBE N l.length ++ bytesOf 2 l) := by
  rcases hN with rfl | rfl | rfl
  · simp only [nlvCodec, nlvPrefixSer]
    rw [serList_scalar]
    simp only [scalarCodec, Outcome.bind]
    rw [show (8 : ℕ) = 8 * 1 from rfl, toBytesBE_mod]
  · simp only [nlvCodec, nlvPrefixSer]
    rw [serList_scalar]
    simp only [scalarCodec, Outcome.bind]
    rw [show (16 : ℕ) = 8 * 2 from rfl, toBytesBE_mod]
  · simp only [nlvCodec, nlvPrefixSer]
    rw [serList_scalar]
    simp only [scalarCodec, Outcome.bind]
    rw [show (32 : ℕ) = 8 * 4 from rfl, toBytesBE_mod]

/-- `NLengthVector<u16, N>` deserialisation in closed form: the `N`-byte
count prefix is read back, then that many `u16` elements. -/
theorem nlv_deser_u16 (N : Nat) (hN : N = 1 ∨ N = 2 ∨ N = 4) (L : Nat)
    (hL : L < 2 ^ (8 * N)) (rest : List Nat) :
    (nlvCodec (scalarCodec 2) N).bin_deserialise_from (toBytesBE N L ++ rest) =
      readList (scalarCodec 2) L rest := by
  rcases hN with rfl | rfl | rfl <;>
  · simp only [nlvCodec, nlvPrefixDeser]
    rw [scalar_deser_append, Nat.mod_eq_of_lt (by simpa using hL), Outcome.ok_bind]
    simp only [Outcome.bind_pair]

/-- `VersionsVector` serialisation in closed form: a 16-bit byte-length
prefix of `2·len` (narrowed mod `2^16`), the element encodings, and the
reported count `2·len mod 2^32` (the prefix is not counted). -/
theorem versions_ser (l : List Nat) :
    versionsCodec.bin_serialise_into l =
      .ok (l.length * 2 % 2 ^ 32, toBytesBE 2 (l.length * 2) ++ bytesOf 2 l) := by
  simp only [versionsCodec]
  rw [serList_scalar]
  simp only [scalarCodec, Outcome.bind]
  rw [show (16 : ℕ) = 8 * 2 from rfl, toBytesBE_mod]

/-- `VersionsVector` deserialisation in closed form: read the 16-bit
byte-length, halve it with truncating division, read that many `u16`
elements. -/
theorem versions_deser (L : Nat) (hL : L < 2 ^ 16) (rest : List Nat) :
    versionsCodec.bin_deserialise_from (toBytesBE 2 L ++ rest) =
      readList (scalarCodec 2) (L / 2) rest := by
  simp only [versionsCodec]
  rw [scalar_deser_append, Nat.mod_eq_of_lt (by simpa using hL), Outcome.ok_bind]
  simp only [Outcome.bind_pair]

theorem Outcome.err_bind {α β : Type} (e : ErrorKind) (f : α → Outcome β) :
    Outcome.bind (.err e) f = .err e := rfl

theorem Outcome.panic_bind {α β : Type} (f : α → Outcome β) :
    Outcome.bind .panic f = Outcome.panic (α := β) := rfl

/-- A single-byte read pops the head of the stream. -/
theorem scalar1_deser_cons (b : Nat) (rest : List Nat) :
    (scalarCodec 1).bin_deserialise_from (b :: rest) = .ok (b, rest) := by
  simp [scalarCodec, fromBytesBE]

/-- A `w`-byte read from a source shorter than `w` bytes fails with the
end-of-input error. -/
theorem scalar_deser_short (w : Nat) (s : List Nat) (h : s.length < w) :
    (scalarCodec w).bin_deserialise_from s = .err eofErr := by
  simp only [scalarCodec]
  rw [if_neg]
  omega

theorem nlvPrefixDeser_eq (N : Nat) (hN : N = 1 ∨ N = 2 ∨ N = 4) (s : List Nat) :
    nlvPrefixDeser N s = (scalarCodec N).bin_deserialise_from s := by
  rcases hN with rfl | rfl | rfl <;> rfl

theorem nlv_len_u16 (N : Nat) (l : List Nat) :
    (nlvCodec (scalarCodec 2) N).serialised_length l = N + 2 * l.length := by
  simp only [nlvCodec, scalarCodec]
  exact foldl_add_two l N

/-- The accumulation loop stops at the first zero byte, returns the bytes
before it, and leaves the bytes after it unread. -/
theorem deserStringLoop_sentinel (bs rest : List Nat) (h0 : 0 ∉ bs) :
    deserStringLoop (bs ++ 0 :: rest) = .ok (bs, rest) := by
  induction bs with
  | nil => simp [deserStringLoop]
  | cons b bs ih =>
    have hb : ¬(b = 0) := by
      intro h
      exact h0 (by simp [h])
    have ih2 := ih (fun h => h0 (List.mem_cons_of_mem _ h))
    rw [List.cons_append, deserStringLoop, if_neg hb, ih2, Outcome.ok_bind]

theorem deserStringLoop_consumes :
    ∀ s v rest, deserStringLoop s = .ok (v, rest) → ∃ p, s = p ++ rest := by
  intro s
  induction s with
  | nil =>
    intro v rest h
    exact absurd h (by simp [deserStringLoop])
  | cons b s ih =>
    intro v rest h
    by_cases hb : b = 0
    · rw [deserStringLoop, if_pos hb] at h
      have : s = rest := by
        simpa using congrArg (fun o => match o with
          | Outcome.ok a => a.2
          | _ => []) h
      exact ⟨[b], by rw [this]; rfl⟩
    · rw [deserStringLoop, if_neg hb] at h
      obtain ⟨a, ha, hres⟩ := Outcome.bind_eq_ok h
      have hrest : a.2 = rest := by
        simpa using congrArg (fun o => match o with
          | Outcome.ok x => x.2
          | _ => []) hres
      obtain ⟨p, hp⟩ := ih a.1 a.2 ha
      exact ⟨b :: p, by rw [← hrest, List.cons_append, ← hp]⟩

theorem scalar_consumes (w : Nat) : ConsumesOnly (scalarCodec w) := by
  intro s v rest h
  simp only [scalarCodec] at h
  split at h
  · have : s.drop w = rest := by
      simpa using congrArg (fun o => match o with
        | Outcome.ok a => a.2
        | _ => []) h
    exact ⟨s.take w, by rw [← this, List.take_append_drop]⟩
  · exact absurd h (by simp)

theorem readList_consumes {α : Type} (c : Codec α) (hc : ConsumesOnly c) :
    ∀ n s l rest, readList c n s = .ok (l, rest) → ∃ p, s = p ++ rest := by
  intro n
  induction n with
  | zero =>
    intro s l rest h
    have : s = rest := by
      simpa using congrArg (fun o => match o with
        | Outcome.ok a => a.2
        | _ => ([] : List Nat)) h
    exact ⟨[], by rw [this]; rfl⟩
  | succ n ih =>
    intro s l rest h
    rw [readList] at h
    obtain ⟨a, ha, h⟩ := Outcome.bind_eq_ok h
    obtain ⟨b, hb, h⟩ := Outcome.bind_eq_ok h
    have hrest : b.2 = rest := by
      simpa using congrArg (fun o => match o with
        | Outcome.ok x => x.2
        | _ => ([] : List Nat)) h
    obtain ⟨p1, hp1⟩ := hc s a.1 a.2 ha
    obtain ⟨p2, hp2⟩ := ih a.2 b.1 b.2 hb
    exact ⟨p1 ++ p2, by rw [← hrest, hp1, hp2, List.append_assoc]⟩

theorem Outcome.ok_inj_rest {β γ : Type} {x v : β} {y rest : γ}
    (h : (Outcome.ok (x, y) : Outcome (β × γ)) = .ok (v, rest)) : y = rest := by
  simpa using congrArg (fun o => match o with | Outcome.ok a => a.2 | _ => y) h

theorem scalar_deser_self (w v : Nat) :
    (scalarCodec w).bin_deserialise_from (toBytesBE w v) = .ok (v % 2 ^ (8 * w), []) := by
  simpa using scalar_deser_append w v []

theorem readList_scalar_self (w : Nat) (l : List Nat) :
    readList (scalarCodec w) l.length (bytesOf w l) =
      .ok (l.map (fun v => v % 2 ^ (8 * w)), []) := by
  simpa using readList_scalar_append w l []

/-- After the family tag 4 and the length byte, IP-address decode runs the
`Ipv4Addr` decoder on the remaining stream. -/
theorem ip_deser_cons4 (a : Nat) (s2 : List Nat) :
    ipCodec.bin_deserialise_from (4 :: a :: s2) =
      Outcome.bind ((scalarCodec 4).bin_deserialise_from s2) fun vs =>
        .ok (IpAddr.V4 vs.1, vs.2) := by
  simp only [ipCodec, scalar1_deser_cons, Outcome.ok_bind]

/-- After the family tag 6 and the length byte, IP-address decode runs the
`Ipv6Addr` decoder on the remaining stream. -/
theorem ip_deser_cons6 (a : Nat) (s2 : List Nat) :
    ipCodec.bin_deserialise_from (6 :: a :: s2) =
      Outcome.bind ((scalarCodec 16).bin_deserialise_from s2) fun vs =>
        .ok (IpAddr.V6 vs.1, vs.2) := by
  simp only [ipCodec, scalar1_deser_cons, Outcome.ok_bind]

/-- Any family tag other than 4 or 6 drives IP-address decode into the
`unreachable!()` arm: the call panics after consuming the tag and length
bytes. -/
theorem ip_deser_cons_other (t a : Nat) (s2 : List Nat) (h4 : t ≠ 4) (h6 : t ≠ 6) :
    ipCodec.bin_deserialise_from (t :: a :: s2) = .panic := by
  simp only [ipCodec, scalar1_deser_cons, Outcome.ok_bind]

theorem nlvPrefixDeser_consumes (N : Nat) (s : List Nat) (a : Nat) (rest : List Nat)
    (h : nlvPrefixDeser N s = .ok (a, rest)) : ∃ p, s = p ++ rest := by
  unfold nlvPrefixDeser at h
  split at h
  · exact scalar_consumes 1 s a rest h
  · exact scalar_consumes 2 s a rest h
  · exact scalar_consumes 4 s a rest h
  · exact absurd h (by simp)

theorem array_consumes (N : Nat) : ConsumesOnly (arrayCodec N) := by
  intro s v rest h
  simp only [arrayCodec] at h
  obtain ⟨a, ha, h⟩ := Outcome.bind_eq_ok h
  have hrest : a.2 = rest := Outcome.ok_inj_rest h
  obtain ⟨p, hp⟩ := readList_consumes (scalarCodec 1) (scalar_consumes 1) N s a.1 a.2 ha
  exact ⟨p, by rw [← hrest, hp]⟩

theorem dateTime_consumes : ConsumesOnly dateTimeCodec := by
  intro s v rest h
  simp only [dateTimeCodec] at h
  obtain ⟨a, ha, h⟩ := Outcome.bind_eq_ok h
  have hrest : a.2 = rest := Outcome.ok_inj_rest h
  obtain ⟨p, hp⟩ := scalar_consumes 4 s a.1 a.2 ha
  exact ⟨p, by rw [← hrest, hp]⟩

theorem nlv_consumes {α : Type} (c : Codec α) (hc : ConsumesOnly c) (N : Nat) :
    ConsumesOnly (nlvCodec c N) := by
  intro s v rest h
  simp only [nlvCodec] at h
  obtain ⟨a1, h1, h⟩ := Outcome.bind_eq_ok h
  obtain ⟨a2, h2, h⟩ := Outcome.bind_eq_ok h
  have hrest : a2.2 = rest := Outcome.ok_inj_rest h
  obtain ⟨p1, hp1⟩ := nlvPrefixDeser_consumes N s a1.1 a1.2 h1
  obtain ⟨p2, hp2⟩ := readList_consumes c hc a1.1 a1.2 a2.1 a2.2 h2
  exact ⟨p1 ++ p2, by rw [← hrest, hp1, hp2, List.append_assoc]⟩

theorem versions_consumes : ConsumesOnly versionsCodec := by
  intro s v rest h
  simp only [versionsCodec] at h
  obtain ⟨a1, h1, h⟩ := Outcome.bind_eq_ok h
  obtain ⟨a2, h2, h⟩ := Outcome.bind_eq_ok h
  have hrest : a2.2 = rest := Outcome.ok_inj_rest h
  obtain ⟨p1, hp1⟩ := scalar_consumes 2 s a1.1 a1.2 h1
  obtain ⟨p2, hp2⟩ :=
    readList_consumes (scalarCodec 2) (scalar_consumes 2) (a1.1 / 2) a1.2 a2.1 a2.2 h2
  exact ⟨p1 ++ p2, by rw [← hrest, hp1, hp2, List.append_assoc]⟩

theorem ip_consumes : ConsumesOnly ipCodec := by
  intro s v rest h
  match s with
  | [] => exact absurd h (by simp [ipCodec, scalarCodec, Outcome.bind])
  | [t] => exact absurd h (by simp [ipCodec, scalarCodec, Outcome.bind, scalar1_deser_cons])
  | t :: a :: s2 =>
    simp only [ipCodec, scalar1_deser_cons, Outcome.ok_bind] at h
    split at h
    · obtain ⟨a3, h3, h⟩ := Outcome.bind_eq_ok h
      have hrest : a3.2 = rest := Outcome.ok_inj_rest h
      obtain ⟨p3, hp3⟩ := scalar_consumes 4 s2 a3.1 a3.2 h3
      exact ⟨4 :: a :: p3, by rw [← hrest, hp3]; rfl⟩
    · obtain ⟨a3, h3, h⟩ := Outcome.bind_eq_ok h
      have hrest : a3.2 = rest := Outcome.ok_inj_rest h
      obtain ⟨p3, hp3⟩ := scalar_consumes 16 s2 a3.1 a3.2 h3
      exact ⟨6 :: a :: p3, by rw [← hrest, hp3]; rfl⟩
    · exact absurd h (by simp)

theorem string_consumes : ConsumesOnly stringCodec := deserStringLoop_consumes

theorem scalar_trunc (w v : Nat) : TruncatedEof (scalarCodec w) v := by
  intro n bs h k hk
  have hbs : toBytesBE w v = bs := Outcome.ok_inj_rest h
  have hlen : bs.length = w := by rw [← hbs, toBytesBE_length]
  exact scalar_deser_short w _ (by simp [List.length_take]; omega)

theorem array_trunc (N : Nat) (a : List Nat) (ha : a.length = N) :
    TruncatedEof (arrayCodec N) a := by
  intro n bs h k hk
  simp only [arrayCodec] at h
  rw [serList_scalar, Outcome.ok_bind] at h
  have hbs : bytesOf 1 a = bs := Outcome.ok_inj_rest h
  have hlen : bs.length = N := by
    rw [← hbs, bytesOf_length]
    omega
  simp only [arrayCodec]
  rw [readList_scalar_short 1 N _ (by simp [List.length_take]; omega), Outcome.err_bind]

theorem dateTime_trunc (ts : Int) : TruncatedEof dateTimeCodec ts := by
  intro n bs h k hk
  have hbs : toBytesBE 4 (ts % (2 ^ 32 : Int)).toNat = bs := Outcome.ok_inj_rest h
  have hlen : bs.length = 4 := by rw [← hbs, toBytesBE_length]
  simp only [dateTimeCodec]
  rw [scalar_deser_short 4 _ (by simp [List.length_take]; omega), Outcome.err_bind]

theorem ip_trunc (a : IpAddr) : TruncatedEof ipCodec a := by
  intro n bs h k hk
  cases a with
  | V4 v =>
    have hbs : toBytesBE 1 4 ++ toBytesBE 1 4 ++ toBytesBE 4 v = bs :=
      Outcome.ok_inj_rest h
    have hbs2 : bs = 4 :: 4 :: toBytesBE 4 v := by
      rw [← hbs]
      simp [toBytesBE]
    have hlen : bs.length = 6 := by
      rw [hbs2]
      simp [toBytesBE_length]
    rw [hbs2]
    match k, hk with
    | 0, _ =>
      rw [List.take_zero]
      rfl
    | 1, _ =>
      simp only [List.take_succ_cons, List.take_zero]
      rfl
    | (k2 + 2), hk =>
      have hk2 : k2 < 4 := by omega
      simp only [List.take_succ_cons]
      rw [ip_deser_cons4,
        scalar_deser_short 4 _ (by simp only [List.length_take, toBytesBE_length]; omega),
        Outcome.err_bind]
  | V6 v =>
    have hbs : toBytesBE 1 6 ++ toBytesBE 1 16 ++ toBytesBE 16 v = bs :=
      Outcome.ok_inj_rest h
    have hbs2 : bs = 6 :: 16 :: toBytesBE 16 v := by
      rw [← hbs]
      simp [toBytesBE]
    have hlen : bs.length = 18 := by
      rw [hbs2]
      simp [toBytesBE_length]
    rw [hbs2]
    match k, hk with
    | 0, _ =>
      rw [List.take_zero]
      rfl
    | 1, _ =>
      simp only [List.take_succ_cons, List.take_zero]
      rfl
    | (k2 + 2), hk =>
      have hk2 : k2 < 16 := by omega
      simp only [List.take_succ_cons]
      rw [ip_deser_cons6,
        scalar_deser_short 16 _ (by simp only [List.length_take, toBytesBE_length]; omega),
        Outcome.err_bind]

theorem nlv_trunc (N : Nat) (hN : N = 1 ∨ N = 2 ∨ N = 4) (l : List Nat)
    (hl : l.length < 2 ^ (8 * N)) : TruncatedEof (nlvCodec (scalarCodec 2) N) l := by
  intro n bs h k hk
  rw [nlv_ser_u16 N hN l] at h
  have hbs : toBytesBE N l.length ++ bytesOf 2 l = bs := Outcome.ok_inj_rest h
  have hblen : bs.length = N + 2 * l.length := by
    rw [← hbs]
    simp [toBytesBE_length, bytesOf_length]
  by_cases hkN : k < N
  · simp only [nlvCodec]
    rw [nlvPrefixDeser_eq N hN,
      scalar_deser_short N _ (by simp only [List.length_take]; omega), Outcome.err_bind]
  · obtain ⟨m, rfl⟩ : ∃ m, k = N + m := ⟨k - N, by omega⟩
    have key : ∀ pre : List Nat, pre.length = N →
        (pre ++ bytesOf 2 l).take (N + m) = pre ++ (bytesOf 2 l).take m := by
      intro pre hp
      rw [← hp, List.take_append]
    have htake : bs.take (N + m) = toBytesBE N l.length ++ (bytesOf 2 l).take m := by
      rw [← hbs]
      exact key _ (toBytesBE_length _ _)
    rw [htake]
    have hm : m < 2 * l.length := by omega
    simp only [nlvCodec]
    rw [nlvPrefixDeser_eq N hN, scalar_deser_append, Nat.mod_eq_of_lt hl, Outcome.ok_bind]
    rw [readList_scalar_short 2 l.length _
      (by simp only [List.length_take, bytesOf_length]; omega), Outcome.err_bind]

theorem versions_trunc (l : List Nat) (hl : l.length * 2 < 2 ^ 16) :
    TruncatedEof versionsCodec l := by
  intro n bs h k hk
  rw [versions_ser] at h
  have hbs : toBytesBE 2 (l.length * 2) ++ bytesOf 2 l = bs := Outcome.ok_inj_rest h
  have hblen : bs.length = 2 + 2 * l.length := by
    rw [← hbs]
    simp [toBytesBE_length, bytesOf_length]
  by_cases hk2 : k < 2
  · simp only [versionsCodec]
    rw [scalar_deser_short 2 _ (by simp only [List.length_take]; omega), Outcome.err_bind]
  · obtain ⟨m, rfl⟩ : ∃ m, k = 2 + m := ⟨k - 2, by omega⟩
    have key : ∀ pre : List Nat, pre.length = 2 →
        (pre ++ bytesOf 2 l).take (2 + m) = pre ++ (bytesOf 2 l).take m := by
      intro pre hp
      rw [show 2 + m = pre.length + m by rw [hp], List.take_append]
    have htake : bs.take (2 + m) = toBytesBE 2 (l.length * 2) ++ (bytesOf 2 l).take m := by
      rw [← hbs]
      exact key _ (toBytesBE_length _ _)
    rw [htake]
    have hm : m < 2 * l.length := by omega
    simp only [versionsCodec]
    rw [scalar_deser_append, Nat.mod_eq_of_lt (by simpa using hl), Outcome.ok_bind]
    rw [Nat.mul_div_cancel l.length (by norm_num : (0 : ℕ) < 2)]
    rw [readList_scalar_short 2 l.length _
      (by simp only [List.length_take, bytesOf_length]; omega), Outcome.err_bind]

/-- C3 counterexample: on the family-tag byte 5 (neither 4 nor 6),
`IpAddr::bin_deserialise_from` hits `unreachable!()` and panics; it does
not return `ErrorKind::BadDiscriminant`. -/
theorem c3_counterexample :
    ipCodec.bin_deserialise_from [5, 4, 0, 0, 0, 0] = .panic ∧
    ipCodec.bin_deserialise_from [5, 4, 0, 0, 0, 0] ≠
      .err (ErrorKind.BadDiscriminant 5) := by decide

/-- C3 (amended): when IP-address decode reads a family tag byte whose
value is neither 4 nor 6, it aborts via the `unreachable!()` panic after
consuming the tag and length bytes, instead of returning a structured
`ErrorKind::BadDiscriminant` error to the caller. -/
theorem c3_bad_tag_panics (t alen : Nat) (rest : List Nat)
    (h4 : t ≠ 4) (h6 : t ≠ 6) :
    ipCodec.bin_deserialise_from (t :: alen :: rest) = .panic :=
  ip_deser_cons_other t alen rest h4 h6

/-- C3 witness: the amended claim at the concrete tag 9. -/
theorem c3_bad_tag_panics_witness :
    ipCodec.bin_deserialise_from (9 :: 16 :: [1, 2]) = .panic :=
  c3_bad_tag_panics 9 16 [1, 2] (by decide) (by decide)

/-- C4 counterexample: the byte 0xFF is not valid UTF-8, yet string
decode returns it as string content instead of failing with an encoding
error — `String::from_utf8_unchecked` performs no validation. -/
theorem c4_counterexample :
    stringCodec.bin_deserialise_from [0xFF, 0] = .ok ([0xFF], []) ∧
    isValidUtf8 [0xFF] = false := by decide

/-- C4 (amended): string decode accumulates bytes up to (and excluding)
the first 0x00 sentinel and returns the accumulated bytes as the string
content without any UTF-8 validation (`String::from_utf8_unchecked`): it
succeeds for every byte sequence, valid UTF-8 or not. -/
theorem c4_string_decode_unchecked (bs rest : List Nat) (h0 : 0 ∉ bs) :
    stringCodec.bin_deserialise_from (bs ++ 0 :: rest) = .ok (bs, rest) :=
  deserStringLoop_sentinel bs rest h0

/-- C4 witness: the amended claim at the concrete content [104, 255]
(the second byte makes it invalid UTF-8) followed by the sentinel. -/
theorem c4_string_decode_unchecked_witness :
    stringCodec.bin_deserialise_from ([104, 255] ++ 0 :: [7]) = .ok ([104, 255], [7]) :=
  c4_string_decode_unchecked [104, 255] [7] (by decide)

/-- C5: encoding the `u16` list [0, 23, 86, 35, 96, 83] as an
`NLengthVector<u16, 1>` produces exactly the bytes
[6, 0,0, 0,23, 0,86, 0,35, 0,96, 0,83] — the 1-byte count 6 first, then
each element big-endian in order (and the reported count is 13). -/
theorem c5_nlv_u16_example :
    (nlvCodec (scalarCodec 2) 1).bin_serialise_into [0, 23, 86, 35, 96, 83] =
      .ok (13, [6, 0, 0, 0, 23, 0, 86, 0, 35, 0, 96, 0, 83]) := by decide

/-- C6: encoding the versions list [3, 4] writes the 16-bit byte-length
prefix 4 (twice the element count) then the elements big-endian, i.e.
the bytes [0, 4, 0, 3, 0, 4]; and decoding any stream that starts with a
16-bit prefix `L` reads that prefix, halves it with integer division,
and decodes `L / 2` 16-bit scalars from the remainder. -/
theorem c6_versions_canonical :
    versionsCodec.bin_serialise_into [3, 4] = .ok (4, [0, 4, 0, 3, 0, 4]) ∧
    ∀ L rest, L < 2 ^ 16 →
      versionsCodec.bin_deserialise_from (toBytesBE 2 L ++ rest) =
        readList (scalarCodec 2) (L / 2) rest := by
  exact ⟨by decide, fun L rest hL => versions_deser L hL rest⟩

/-- C6 witness: the decode half of the claim at the concrete prefix 4
over the payload [0, 3, 0, 4]. -/
theorem c6_versions_canonical_witness :
    (4 : Nat) < 2 ^ 16 ∧
    versionsCodec.bin_deserialise_from (toBytesBE 2 4 ++ [0, 3, 0, 4]) =
      readList (scalarCodec 2) (4 / 2) [0, 3, 0, 4] :=
  ⟨by decide, c6_versions_canonical.2 4 [0, 3, 0, 4] (by decide)⟩

/-- C8 counterexample: the list codec with prefix width 3 is
constructible and its construction is nowhere rejected; instead encode
(and decode) reach the `unreachable!()` arm and panic at run time — the
illegal width does surface as an encode- or decode-time failure. -/
theorem c8_counterexample :
    (nlvCodec (scalarCodec 2) 3).bin_serialise_into [7, 7] = .panic ∧
    (nlvCodec (scalarCodec 2) 3).bin_deserialise_from [0, 0, 2, 0, 7] = .panic := by
  decide

/-- C8 (amended): for any prefix width other than 1, 2 or 4, nothing is
rejected when the list codec is constructed; every call to encode and
every call to decode reaches `unreachable!()` and panics at run time. -/
theorem c8_nlv_width_panics (N : Nat) (h1 : N ≠ 1) (h2 : N ≠ 2) (h4 : N ≠ 4) :
    (∀ l : List Nat, (nlvCodec (scalarCodec 2) N).bin_serialise_into l = .panic) ∧
    (∀ s : List Nat, (nlvCodec (scalarCodec 2) N).bin_deserialise_from s = .panic) := by
  constructor
  · intro l
    have hp : nlvPrefixSer N l.length = .panic := by
      unfold nlvPrefixSer
      split
      · exact absurd rfl h1
      · exact absurd rfl h2
      · exact absurd rfl h4
      · rfl
    simp only [nlvCodec, hp, Outcome.panic_bind]
  · intro s
    have hp : nlvPrefixDeser N s = .panic := by
      unfold nlvPrefixDeser
      split
      · exact absurd rfl h1
      · exact absurd rfl h2
      · exact absurd rfl h4
      · rfl
    simp only [nlvCodec, hp, Outcome.panic_bind]

/-- C8 witness: the amended claim at the concrete width 3, on an empty
list and an empty source. -/
theorem c8_nlv_width_panics_witness :
    (nlvCodec (scalarCodec 2) 3).bin_serialise_into [] = .panic ∧
    (nlvCodec (scalarCodec 2) 3).bin_deserialise_from [] = .panic :=
  ⟨(c8_nlv_width_panics 3 (by decide) (by decide) (by decide)).1 [],
   (c8_nlv_width_panics 3 (by decide) (by decide) (by decide)).2 []⟩

/-- C9: when the element count of an `NLengthVector<u16, N>` exceeds
2^(8N)−1, encode does not reject: it writes the count modulo 2^(8N) as
the prefix (the `as` cast narrows modularly) and still encodes every
element, and the narrowed prefix differs from the true count.  Stated
for N ∈ {1,2} with the running `u32` byte total `N + 2·len` below 2^32,
where the source's count arithmetic cannot overflow; for N = 4 an
overflowing count needs ≥ 2^32 elements, which already overflows that
`u32` total itself, so the claim's scenario has no overflow-free
instance there. -/
theorem c9_nlv_count_overflow (N : Nat) (l : List Nat)
    (hN : N = 1 ∨ N = 2) (hlen : 2 ^ (8 * N) - 1 < l.length)
    (htot : N + 2 * l.length < 2 ^ 32) :
    (nlvCodec (scalarCodec 2) N).bin_serialise_into l =
      .ok (N + 2 * l.length, toBytesBE N (l.length % 2 ^ (8 * N)) ++ bytesOf 2 l) ∧
    l.length % 2 ^ (8 * N) ≠ l.length := by
  have hN3 : N = 1 ∨ N = 2 ∨ N = 4 := by
    rcases hN with rfl | rfl
    · exact Or.inl rfl
    · exact Or.inr (Or.inl rfl)
  constructor
  · rw [nlv_ser_u16 N hN3 l, toBytesBE_mod]
  · have hpos : 0 < 2 ^ (8 * N) := Nat.pos_pow_of_pos _ (by norm_num)
    have : l.length % 2 ^ (8 * N) < 2 ^ (8 * N) := Nat.mod_lt _ hpos
    omega

set_option maxRecDepth 4000 in
/-- C9 witness: the claim at width 1 on a 256-element list, whose prefix
byte wraps to 0 while the 513-byte total stays far below 2^32. -/
theorem c9_nlv_count_overflow_witness :
    2 ^ (8 * 1) - 1 < (List.replicate 256 0).length ∧
    1 + 2 * (List.replicate 256 0).length < 2 ^ 32 ∧
    ((nlvCodec (scalarCodec 2) 1).bin_serialise_into (List.replicate 256 0) =
        .ok (1 + 2 * (List.replicate 256 0).length,
          toBytesBE 1 ((List.replicate 256 0).length % 2 ^ (8 * 1)) ++
            bytesOf 2 (List.replicate 256 0)) ∧
      (List.replicate 256 0).length % 2 ^ (8 * 1) ≠ (List.replicate 256 0).length) :=
  ⟨by decide, by decide,
   c9_nlv_count_overflow 1 (List.replicate 256 0) (Or.inl rfl) (by decide) (by decide)⟩

/-- C10: when the versions decoder reads an odd 16-bit byte-length
prefix `L`, it decodes exactly `L / 2` (truncating division) 16-bit
elements and succeeds, leaving the odd trailing byte promised by the
prefix unconsumed in the source — no structural-length error is
reported. -/
theorem c10_versions_odd_prefix (L : Nat) (rest : List Nat) (hL : L < 2 ^ 16)
    (hodd : L % 2 = 1) (hrest : L ≤ rest.length) :
    ∃ l, versionsCodec.bin_deserialise_from (toBytesBE 2 L ++ rest) =
        .ok (l, rest.drop (L - 1)) ∧ l.length = L / 2 ∧
      1 ≤ (rest.drop (L - 1)).length := by
  have h2 : 2 * (L / 2) = L - 1 := by omega
  obtain ⟨l, hl, hlen⟩ := readList_scalar_enough 2 (L / 2) rest (by omega)
  refine ⟨l, ?_, hlen, ?_⟩
  · rw [versions_deser L hL rest, hl, h2]
  · simp only [List.length_drop]
    omega

/-- C10 witness: the claim at the concrete odd prefix 3 over a 3-byte
payload: one element is decoded and one promised byte stays unread. -/
theorem c10_versions_odd_prefix_witness :
    ∃ l, versionsCodec.bin_deserialise_from (toBytesBE 2 3 ++ [0, 5, 9]) =
        .ok (l, [0, 5, 9].drop (3 - 1)) ∧ l.length = 3 / 2 ∧
      1 ≤ ([0, 5, 9].drop (3 - 1)).length :=
  c10_versions_odd_prefix 3 [0, 5, 9] (by decide) (by decide) (by decide)

/-- C1 counterexample: `VersionsVector` breaks the measure/encode
agreement: serialising [3] reports the count 2 — equal to
`serialised_length` — but actually writes 4 bytes to the sink (the
2-byte prefix is written yet not counted). -/
theorem c1_counterexample :
    versionsCodec.bin_serialise_into [3] =
      .ok (versionsCodec.serialised_length [3], [0, 2, 0, 3]) ∧
    ([0, 2, 0, 3] : List Nat).length ≠ versionsCodec.serialised_length [3] := by
  decide

/-- C1 (amended): wherever the source's `u32` byte-count arithmetic
cannot overflow, `serialised_length` equals both the byte count returned
by `bin_serialise_into` and the number of bytes actually written: for
scalars, fixed byte arrays with N < 2^32, strings whose content length
plus the sentinel stays below 2^32, IP addresses, timestamps, and
`NLengthVector<u16, N>` with N ∈ {1,2,4} and total size below 2^32; for
`VersionsVector`, `serialised_length` equals the returned count but the
bytes written exceed it by exactly the 2-byte prefix. -/
theorem c1_measure_matches_encode :
    (∀ w v, SerAgrees (scalarCodec w) v) ∧
    (∀ N a, a.length = N → N < 2 ^ 32 → SerAgrees (arrayCodec N) a) ∧
    (∀ bs : List Nat, bs.length + 1 < 2 ^ 32 → SerAgrees stringCodec bs) ∧
    (∀ a : IpAddr, SerAgrees ipCodec a) ∧
    (∀ ts : Int, SerAgrees dateTimeCodec ts) ∧
    (∀ N l, (N = 1 ∨ N = 2 ∨ N = 4) → N + 2 * l.length < 2 ^ 32 →
      SerAgrees (nlvCodec (scalarCodec 2) N) l) ∧
    (∀ l : List Nat, l.length * 2 < 2 ^ 32 →
      ∃ bs, versionsCodec.bin_serialise_into l =
          .ok (versionsCodec.serialised_length l, bs) ∧
        bs.length = versionsCodec.serialised_length l + 2) := by
  refine ⟨?_, ?_, ?_, ?_, ?_, ?_, ?_⟩
  · intro w v
    exact ⟨toBytesBE w v, rfl, toBytesBE_length w v⟩
  · intro N a ha hN32
    refine ⟨bytesOf 1 a, ?_, ?_⟩
    · simp only [arrayCodec]
      rw [serList_scalar]
      simp only [Outcome.ok_bind]
      rw [ha]
    · rw [bytesOf_length]
      simp only [arrayCodec]
      omega
  · intro bs hlen
    refine ⟨bs ++ [0], rfl, ?_⟩
    have h1 : (bs ++ [0]).length = bs.length + 1 := by simp
    rw [h1]
    show bs.length + 1 = 1 + bs.length % 2 ^ 32
    rw [Nat.mod_eq_of_lt (by omega)]
    omega
  · intro a
    cases a with
    | V4 v => exact ⟨_, rfl, by simp [ipCodec, toBytesBE_length]⟩
    | V6 v => exact ⟨_, rfl, by simp [ipCodec, toBytesBE_length]⟩
  · intro ts
    exact ⟨toBytesBE 4 (ts % (2 ^ 32 : Int)).toNat, rfl, toBytesBE_length _ _⟩
  · intro N l hN hN32
    refine ⟨toBytesBE N l.length ++ bytesOf 2 l, ?_, ?_⟩
    · rw [nlv_ser_u16 N hN l, nlv_len_u16]
    · rw [nlv_len_u16]
      simp [toBytesBE_length, bytesOf_length]
  · intro l hlen
    refine ⟨toBytesBE 2 (l.length * 2) ++ bytesOf 2 l, ?_, ?_⟩
    · rw [versions_ser]
      rfl
    · simp only [versionsCodec, List.length_append, toBytesBE_length, bytesOf_length,
        Nat.mod_eq_of_lt hlen]
      omega

/-- C1 witness: the amended claim's list conjunct at width 1 on the
concrete list [9], whose total size 3 is far below 2^32. -/
theorem c1_measure_matches_encode_witness :
    SerAgrees (nlvCodec (scalarCodec 2) 1) [9] :=
  c1_measure_matches_encode.2.2.2.2.2.1 1 [9] (Or.inl rfl) (by norm_num)

/-- C2 counterexample: the string "\0" (content [0]) is constructible
in-process; encoding it yields [0, 0] but decoding those bytes stops at
the first sentinel and returns the empty string with a byte left over —
the round trip loses the value. -/
theorem c2_counterexample :
    stringCodec.bin_serialise_into [0] = .ok (2, [0, 0]) ∧
    stringCodec.bin_deserialise_from [0, 0] = .ok ([], [0]) ∧
    ([] : List Nat) ≠ [0] := by decide

/-- C2 (amended): decode ∘ encode is the identity on: scalars within
their width, byte arrays with in-range entries, strings whose content
has no 0x00 byte, IP addresses, timestamps whose Unix-second count lies
in [0, 2^32), `NLengthVector<u16, N>` (N ∈ {1,2,4}) whose count fits the
prefix and whose elements are in range, and `VersionsVector` with fewer
than 2^15 in-range elements.  (Strings containing the sentinel,
out-of-range timestamps, and lists whose count overflows the prefix do
not round-trip.) -/
theorem c2_round_trip :
    (∀ w v, v < 2 ^ (8 * w) → RoundTrips (scalarCodec w) v) ∧
    (∀ N a, a.length = N → (∀ b ∈ a, b < 2 ^ 8) → RoundTrips (arrayCodec N) a) ∧
    (∀ bs : List Nat, 0 ∉ bs → RoundTrips stringCodec bs) ∧
    (∀ v, v < 2 ^ 32 → RoundTrips ipCodec (IpAddr.V4 v)) ∧
    (∀ v, v < 2 ^ 128 → RoundTrips ipCodec (IpAddr.V6 v)) ∧
    (∀ ts : Int, 0 ≤ ts → ts < 2 ^ 32 → RoundTrips dateTimeCodec ts) ∧
    (∀ N l, (N = 1 ∨ N = 2 ∨ N = 4) → l.length < 2 ^ (8 * N) →
      (∀ v ∈ l, v < 2 ^ 16) → RoundTrips (nlvCodec (scalarCodec 2) N) l) ∧
    (∀ l : List Nat, l.length * 2 < 2 ^ 16 → (∀ v ∈ l, v < 2 ^ 16) →
      RoundTrips versionsCodec l) := by
  refine ⟨?_, ?_, ?_, ?_, ?_, ?_, ?_, ?_⟩
  · intro w v hv
    exact ⟨w, toBytesBE w v, rfl, by rw [scalar_deser_self, Nat.mod_eq_of_lt hv]⟩
  · intro N a ha hb
    refine ⟨N, bytesOf 1 a, ?_, ?_⟩
    · simp only [arrayCodec]
      rw [serList_scalar]
      simp only [Outcome.ok_bind]
    · simp only [arrayCodec]
      rw [← ha, readList_scalar_self]
      simp only [Outcome.ok_bind]
      rw [map_mod_eq_self (by simpa using hb)]
  · intro bs h0
    exact ⟨1 + bs.length % 2 ^ 32, bs ++ [0], rfl, deserStringLoop_sentinel bs [] h0⟩
  · intro v hv
    refine ⟨6, 4 :: 4 :: toBytesBE 4 v, by simp [ipCodec, scalarCodec, toBytesBE, Outcome.ok_bind], ?_⟩
    rw [ip_deser_cons4, scalar_deser_self]
    simp only [Outcome.ok_bind]
    have hv2 : v < 2 ^ (8 * 4) := by
      norm_num at hv ⊢
      exact hv
    rw [Nat.mod_eq_of_lt hv2]
  · intro v hv
    refine ⟨18, 6 :: 16 :: toBytesBE 16 v, by simp [ipCodec, scalarCodec, toBytesBE, Outcome.ok_bind], ?_⟩
    rw [ip_deser_cons6, scalar_deser_self]
    simp only [Outcome.ok_bind]
    have hv2 : v < 2 ^ (8 * 16) := by
      norm_num at hv ⊢
      exact hv
    rw [Nat.mod_eq_of_lt hv2]
  · intro ts h0 hlt
    refine ⟨4, toBytesBE 4 (ts % (2 ^ 32 : Int)).toNat, rfl, ?_⟩
    simp only [dateTimeCodec]
    rw [scalar_deser_self]
    simp only [Outcome.ok_bind]
    have hmod : ts % (2 ^ 32 : Int) = ts := Int.emod_eq_of_lt h0 hlt
    rw [hmod]
    have ht : ts.toNat < 2 ^ (8 * 4) := by
      norm_num at hlt ⊢
      omega
    rw [Nat.mod_eq_of_lt ht, Int.toNat_of_nonneg h0]
  · intro N l hN hlen hv
    refine ⟨N + 2 * l.length, toBytesBE N l.length ++ bytesOf 2 l, nlv_ser_u16 N hN l, ?_⟩
    rw [nlv_deser_u16 N hN l.length hlen, readList_scalar_self,
      map_mod_eq_self (by simpa using hv)]
  · intro l hlen hv
    refine ⟨l.length * 2 % 2 ^ 32, toBytesBE 2 (l.length * 2) ++ bytesOf 2 l,
      versions_ser l, ?_⟩
    rw [versions_deser (l.length * 2) hlen (bytesOf 2 l),
      Nat.mul_div_cancel l.length (by norm_num : (0 : ℕ) < 2), readList_scalar_self,
      map_mod_eq_self (by simpa using hv)]

/-- C2 witness: the scalar conjunct of the round trip at width 2 on the
value 0x39E3 = 14819. -/
theorem c2_round_trip_witness : RoundTrips (scalarCodec 2) 14819 :=
  c2_round_trip.1 2 14819 (by decide)

/-- C7: truncated input.  For every fixed-width codec (scalars of any
width, fixed byte arrays, IP addresses, timestamps) and the
length-prefixed list codecs over `u16` elements (`NLengthVector` with
N ∈ {1,2,4} and in-range count, `VersionsVector` with in-range byte
length), decoding any strict prefix of a valid encoding fails with the
end-of-input error (`ErrorKind::BincodeError(Io(UnexpectedEof))`); and
every decoder only ever consumes a prefix of its source, so it never
touches bytes beyond those available. -/
theorem c7_truncated_input :
    (∀ w v, TruncatedEof (scalarCodec w) v) ∧
    (∀ N a, a.length = N → TruncatedEof (arrayCodec N) a) ∧
    (∀ a : IpAddr, TruncatedEof ipCodec a) ∧
    (∀ ts : Int, TruncatedEof dateTimeCodec ts) ∧
    (∀ N l, (N = 1 ∨ N = 2 ∨ N = 4) → l.length < 2 ^ (8 * N) →
      TruncatedEof (nlvCodec (scalarCodec 2) N) l) ∧
    (∀ l : List Nat, l.length * 2 < 2 ^ 16 → TruncatedEof versionsCodec l) ∧
    (∀ w, ConsumesOnly (scalarCodec w)) ∧
    (∀ N, ConsumesOnly (arrayCodec N)) ∧
    ConsumesOnly ipCodec ∧
    ConsumesOnly dateTimeCodec ∧
    (∀ N, ConsumesOnly (nlvCodec (scalarCodec 2) N)) ∧
    ConsumesOnly versionsCodec ∧
    ConsumesOnly stringCodec :=
  ⟨scalar_trunc, array_trunc, ip_trunc, dateTime_trunc,
   fun N l hN hl => nlv_trunc N hN l hl, versions_trunc,
   scalar_consumes, array_consumes, ip_consumes, dateTime_consumes,
   fun N => nlv_consumes (scalarCodec 2) (scalar_consumes 2) N,
   versions_consumes, string_consumes⟩

/-- C7 witness: truncating the 4-byte encoding of the `u32` value 7 to
its first 3 bytes makes decode fail with the end-of-input error. -/
theorem c7_truncated_input_witness :
    (scalarCodec 4).bin_deserialise_from
      (([0, 0, 0, 7] : List Nat).take 3) = .err eofErr :=
  c7_truncated_input.1 4 7 4 [0, 0, 0, 7] (by decide) 3 (by decide)
